import Mathlib

/-!
Verification of the rbac-analyzer call-site analysis pipeline.

The Go program scans a repository's syntax trees for call expressions of the
form `receiver.Method(args...)`, filters them to the five controller-runtime
client methods declared in `methodArgMap`, checks that the method's declaring
symbol lives in `sigs.k8s.io/controller-runtime/pkg/client`, resolves the
static type of the argument at the configured 1-based position, and
aggregates `renderedType -> set of method names` plus a total matched-call
counter.  The reporter then prints each resource with a normalized
(lowercased, unqualified) display name.

This file shallowly embeds that pipeline: Go maps become association lists
(insertion-ordered, which is one admissible iteration order), the fallible
parts of `processMethodCall` (argument indexing that can go out of range,
calling `String()` on a possibly-nil `types.Type`) become `Except` values
where a Go runtime panic is modelled by `Except.error`, and the
`go/types`/`go/ast` resolution services become data carried on the embedded
call expressions.
-/

/-- The target namespace a matched method's declaring symbol must belong to,
from `const targetPackage` in `main.go`. -/
def targetPackage : String := "sigs.k8s.io/controller-runtime/pkg/client"

/-- The method specification table `methodArgMap` of `main.go`: method name to
the 1-based position of the resource argument. -/
def methodArgMap : List (String × Nat) :=
  [("Get", 3), ("Update", 2), ("Create", 2), ("Delete", 2), ("Patch", 2)]

/-- `argIndex, exists := methodArgMap[methodName]` — lookup in the method
specification table, absence modelled as `none`. -/
def lookupMethodArg (methodName : String) : Option Nat :=
  match methodArgMap.find? (fun p => p.fst == methodName) with
  | some p => some p.snd
  | none => none

/-- Static Go types as far as this analyzer observes them: named types
carrying their package path, and pointer types. -/
inductive GoType where
  | named (pkgPath typeName : String) : GoType
  | pointer (elem : GoType) : GoType
deriving DecidableEq, Repr

/-- `types.Type.String()`: the canonical fully-qualified rendering, pointer
marker and package path preserved (e.g. `*k8s.io/api/apps/v1.Deployment`). -/
def GoType.render : GoType → String
  | .named pkgPath typeName => pkgPath ++ "." ++ typeName
  | .pointer elem => "*" ++ elem.render

/-- An argument expression of a call, together with what the loader's
resolution services answer for it: `text` is `types.ExprString(arg)` and
`resolvedType` is `pkg.TypesInfo.Types[arg].Type` (`none` models a nil
`types.Type`, i.e. failed type resolution). -/
structure GoArg where
  text : String
  resolvedType : Option GoType
deriving DecidableEq, Repr

/-- A call expression whose callee is a selector `recv.Method(...)`:
`methodName` is `sel.Sel.Name`, `declaringPkg` is the package path of
`pkg.TypesInfo.ObjectOf(sel.Sel)` (`none` when the object or its package is
nil, i.e. symbol resolution failed), and `args` are the call arguments. -/
structure SelectorCall where
  methodName : String
  declaringPkg : Option String
  args : List GoArg
deriving DecidableEq, Repr

/-- A node met by the `ast.Inspect` traversal: either a call expression with a
selector callee, or any other node (ignored by the analyzer). -/
inductive AstNode where
  | selCall (c : SelectorCall) : AstNode
  | other : AstNode
deriving DecidableEq, Repr

/-- The `Analyzer` state: the total matched-call counter and
`resourcePerListMethods`.  The Go `map[string]map[string]bool` is embedded as
an insertion-ordered association list of `(resource identity, method list)`
pairs; the inner set is a duplicate-free list. -/
structure Analyzer where
  clientMethodCallCount : Nat
  resourcePerListMethods : List (String × List String)
deriving DecidableEq, Repr

/-- `NewAnalyzer`: zero counter, empty map. -/
def NewAnalyzer : Analyzer :=
  { clientMethodCallCount := 0, resourcePerListMethods := [] }

/-- The map-insertion core of `addValueToMap`: create the entry on a missing
key, and insert the value into the key's set (a no-op when already
present). -/
def insertValue (entries : List (String × List String)) (key value : String) :
    List (String × List String) :=
  match entries with
  | [] => [(key, [value])]
  | (k, vs) :: rest =>
    if k = key then
      (k, if value ∈ vs then vs else vs ++ [value]) :: rest
    else
      (k, vs) :: insertValue rest key value

/-- `(*Analyzer).addValueToMap`: record `value` in the method set of `key`. -/
def addValueToMap (a : Analyzer) (key value : String) : Analyzer :=
  { a with resourcePerListMethods := insertValue a.resourcePerListMethods key value }

/-- Read the method set stored for a resource identity. -/
def lookupMethods (a : Analyzer) (key : String) : Option (List String) :=
  match a.resourcePerListMethods.find? (fun p => p.fst == key) with
  | some p => some p.snd
  | none => none

/-- The Go map lookup `m[key][value]` on the embedded association list:
does the aggregate record `value` in the method set of `key`? -/
def entriesContains : List (String × List String) → String → String → Bool
  | [], _, _ => false
  | (k0, vs) :: rest, k, v => if k0 = k then decide (v ∈ vs) else entriesContains rest k v

/-- Membership of a `(resource identity, method)` pair in the aggregate. -/
def containsMethod (a : Analyzer) (key value : String) : Bool :=
  entriesContains a.resourcePerListMethods key value

/-- A sequence of `record(identity, method)` aggregator operations applied in
order. -/
def applyRecords (a : Analyzer) (ops : List (String × String)) : Analyzer :=
  match ops with
  | [] => a
  | op :: rest => applyRecords (addValueToMap a op.fst op.snd) rest

/-- `(*Analyzer).processMethodCall`, reached once the method name was found in
`methodArgMap`.  It checks that the resolved declaring symbol's package is
`targetPackage` (otherwise it leaves the state untouched), then evaluates
`call.Args[argIndex-1]` — a Go out-of-range panic when the call has fewer
arguments, modelled as `Except.error` — then calls `String()` on the
argument's resolved type — a Go nil-dereference panic when type resolution
failed — and finally increments the counter and records
`(renderedType, methodName)`. -/
def processMethodCall (a : Analyzer) (call : SelectorCall) (argIndex : Nat) :
    Except String Analyzer :=
  match call.declaringPkg with
  | some pkgPath =>
    if pkgPath = targetPackage then
      match call.args.get? (argIndex - 1) with
      | none => Except.error "runtime error: index out of range"
      | some arg =>
        match arg.resolvedType with
        | none => Except.error "runtime error: invalid memory address or nil pointer dereference"
        | some t =>
          Except.ok
            { clientMethodCallCount := a.clientMethodCallCount + 1,
              resourcePerListMethods :=
                insertValue a.resourcePerListMethods t.render call.methodName }
    else Except.ok a
  | none => Except.ok a

/-- One step of the `ast.Inspect` callback in `findClientMethodCalls`: a
selector call whose method name is in `methodArgMap` is handed to
`processMethodCall`; every other node leaves the state unchanged. -/
def visitNode (a : Analyzer) (n : AstNode) : Except String Analyzer :=
  match n with
  | .selCall c =>
    match lookupMethodArg c.methodName with
    | some argIndex => processMethodCall a c argIndex
    | none => Except.ok a
  | .other => Except.ok a

/-- `(*Analyzer).findClientMethodCalls`: the full pre-order traversal, visiting
every node once; a panic in any step aborts the run. -/
def findClientMethodCalls (a : Analyzer) (nodes : List AstNode) : Except String Analyzer :=
  match nodes with
  | [] => Except.ok a
  | n :: rest =>
    match visitNode a n with
    | Except.ok a2 => findClientMethodCalls a2 rest
    | Except.error e => Except.error e

/-- The match predicate actually tested by the code before mutating state:
known method name and declaring symbol resolved to the target package. -/
def matchedCall (c : SelectorCall) : Bool :=
  (lookupMethodArg c.methodName).isSome && c.declaringPkg == some targetPackage

/-- The spec's full match predicate: known method, target namespace, and
sufficient arity for the configured argument index. -/
def fullyMatchedCall (c : SelectorCall) : Bool :=
  match lookupMethodArg c.methodName with
  | some argIndex =>
    c.declaringPkg == some targetPackage && decide (argIndex ≤ c.args.length)
  | none => false

/-- `fullyMatchedCall` lifted to traversal nodes. -/
def fullyMatchedNode : AstNode → Bool
  | .selCall c => fullyMatchedCall c
  | .other => false

/-- `strings.Split(s, ".")` specialised to the dot separator, on character
lists. -/
def splitOnDot : List Char → List (List Char)
  | [] => [[]]
  | c :: rest =>
    match splitOnDot rest with
    | [] => [[]]
    | h :: t => if c = '.' then [] :: h :: t else (c :: h) :: t

/-- `parts[len(parts)-1]`: the last element of a non-empty list, with a
default for the (unreachable) empty case. -/
def lastPart (parts : List (List Char)) (dflt : List Char) : List Char :=
  match parts with
  | [] => dflt
  | [p] => p
  | _ :: rest => lastPart rest dflt

/-- `extractResourceName` on character lists: split on `.`, return the last
part when there was more than one, the input otherwise. -/
def extractResourceNameL (l : List Char) : List Char :=
  let parts := splitOnDot l
  if parts.length > 1 then lastPart parts l else l

/-- `extractResourceName`: isolate the type name after the last dot of the
fully-qualified rendering. -/
def extractResourceName (fullName : String) : String :=
  String.mk (extractResourceNameL fullName.data)

/-- The regex replacement of `getKubernetesResourceName`: each leftmost,
non-overlapping match of `([a-z0-9])([A-Z])` is replaced by `${1}${2}`, i.e.
by the matched pair itself. -/
def camelCaseReplace : List Char → List Char
  | [] => []
  | [c] => [c]
  | c1 :: c2 :: rest =>
    if (c1.isLower || c1.isDigit) && c2.isUpper then
      c1 :: c2 :: camelCaseReplace rest
    else
      c1 :: camelCaseReplace (c2 :: rest)

/-- `getKubernetesResourceName`: run the camel-case boundary replacement, then
`strings.ToLower` (character-wise ASCII lowercasing). -/
def getKubernetesResourceName (s : String) : String :=
  String.mk ((camelCaseReplace s.data).map Char.toLower)

/-- Plain `strings.ToLower`, the spec-side comparison point for the
refinement claim about `getKubernetesResourceName`. -/
def goToLower (s : String) : String :=
  String.mk (s.data.map Char.toLower)

/-- The display-time normalization used by `logMap`:
`getKubernetesResourceName(extractResourceName(key))`. -/
def normalizeResource (s : String) : String :=
  getKubernetesResourceName (extractResourceName s)

/-- Lexicographic order on character lists by code point, the order
`sort.Strings` would use — the reference point for the sortedness claim
about the reporter. -/
def lexLe : List Char → List Char → Bool
  | [], _ => true
  | _ :: _, [] => false
  | a :: as, b :: bs =>
    if a = b then lexLe as bs else decide (a.toNat < b.toNat)

/-- Lexicographic order on strings. -/
def strLeB (a b : String) : Bool :=
  lexLe a.data b.data

/-- Is a list of strings sorted under the lexicographic order? -/
def sortedStrings : List String → Bool
  | [] => true
  | [_] => true
  | a :: b :: rest => strLeB a b && sortedStrings (b :: rest)

/-- `(*Analyzer).logMap` as the list of per-resource output strings, with the
map iterated in the embedded (insertion) order — one admissible Go map
iteration order — and the method set joined in its stored order. -/
def logMapLines (a : Analyzer) (displayResourcePath : Bool) : List String :=
  a.resourcePerListMethods.map (fun p =>
    let key := p.fst
    let kubernetesResourceName := normalizeResource key
    if displayResourcePath then
      "Full Resource Name: " ++ key ++ "\nResource: " ++ kubernetesResourceName ++
        "\nMethods: [" ++ String.intercalate ", " p.snd ++ "]\n"
    else
      "Resource: " ++ kubernetesResourceName ++ "\nMethods: [" ++
        String.intercalate ", " p.snd ++ "]\n")

/-- A context argument (its type is never inspected by the analyzer). -/
def ctxArg : GoArg := { text := "ctx", resolvedType := none }

/-- A `types.NamespacedName` key argument (its type is never inspected). -/
def keyArg : GoArg := { text := "key", resolvedType := none }

/-- The argument expression `&pkg.Deployment{}` with its resolved static
type `*pkg.Deployment`. -/
def deploymentArg : GoArg :=
  { text := "&pkg.Deployment\x7b\x7d",
    resolvedType := some (.pointer (.named "pkg" "Deployment")) }

/-- The argument expression `&pkg.Pod{}` with its resolved static type
`*pkg.Pod`. -/
def podArg : GoArg :=
  { text := "&pkg.Pod\x7b\x7d",
    resolvedType := some (.pointer (.named "pkg" "Pod")) }

/-- The argument expression `&pkg.Deployment{}` when type resolution failed:
`TypesInfo.Types[arg].Type` is nil. -/
def nilTypeDeploymentArg : GoArg :=
  { text := "&pkg.Deployment\x7b\x7d", resolvedType := none }

/-- The call `c.Get(ctx, key, &pkg.Deployment{})` on a client of the target
namespace. -/
def getDeploymentCall : SelectorCall :=
  { methodName := "Get", declaringPkg := some targetPackage,
    args := [ctxArg, keyArg, deploymentArg] }

/-- The call `c.Create(ctx, &pkg.Deployment{})` on a client of the target
namespace. -/
def createDeploymentCall : SelectorCall :=
  { methodName := "Create", declaringPkg := some targetPackage,
    args := [ctxArg, deploymentArg] }

/-- The call `c.Get(ctx, key, &pkg.Pod{})` on a client of the target
namespace. -/
def getPodCall : SelectorCall :=
  { methodName := "Get", declaringPkg := some targetPackage,
    args := [ctxArg, keyArg, podArg] }

/-- The spec's three-call example input, all calls on a client of the target
namespace: `c.Get(ctx, key, &pkg.Deployment{})`,
`c.Create(ctx, &pkg.Deployment{})`, `c.Get(ctx, key, &pkg.Pod{})`. -/
def exampleNodes : List AstNode :=
  [.selCall getDeploymentCall, .selCall createDeploymentCall, .selCall getPodCall]

/-- A call to a method absent from the specification table,
`c.List(ctx, list)` on a target-namespace client. -/
def unrelatedMethodCall : SelectorCall :=
  { methodName := "List", declaringPkg := some targetPackage,
    args := [ctxArg, deploymentArg] }

/-- A call to a same-named `Get` method declared on a type outside the target
namespace. -/
def otherPackageGetCall : SelectorCall :=
  { methodName := "Get", declaringPkg := some "example.com/other/client",
    args := [ctxArg, keyArg, deploymentArg] }

/-- A `Get` call whose callee symbol could not be resolved at all. -/
def unresolvedSymbolGetCall : SelectorCall :=
  { methodName := "Get", declaringPkg := none,
    args := [ctxArg, keyArg, deploymentArg] }

/-- The analyzer state the three-call example produces. -/
def exampleResult : Analyzer :=
  { clientMethodCallCount := 3,
    resourcePerListMethods :=
      [("*pkg.Deployment", ["Get", "Create"]), ("*pkg.Pod", ["Get"])] }

/-- A matched `Get` call carrying only two arguments (a malformed or partial
call expression): the configured argument index is 3. -/
def truncatedGetCall : SelectorCall :=
  { methodName := "Get", declaringPkg := some targetPackage,
    args := [ctxArg, keyArg] }

/-- A matched `Get` call whose resource argument's static type failed to
resolve. -/
def unresolvedTypeGetCall : SelectorCall :=
  { methodName := "Get", declaringPkg := some targetPackage,
    args := [ctxArg, keyArg, nilTypeDeploymentArg] }

/-! ## Aggregator lemmas -/

theorem entriesContains_nil (k v : String) : entriesContains [] k v = false := rfl

theorem entriesContains_cons_self (k : String) (vs : List String)
    (rest : List (String × List String)) (v : String) :
    entriesContains ((k, vs) :: rest) k v = decide (v ∈ vs) := by
  simp [entriesContains]

theorem entriesContains_cons_ne (k0 k : String) (vs : List String)
    (rest : List (String × List String)) (v : String) (h : k0 ≠ k) :
    entriesContains ((k0, vs) :: rest) k v = entriesContains rest k v := by
  simp [entriesContains, h]

theorem entriesContains_insertValue (entries : List (String × List String))
    (key value k v : String) :
    entriesContains (insertValue entries key value) k v = true ↔
      (k = key ∧ v = value) ∨ entriesContains entries k v = true := by
  induction entries with
  | nil =>
    show entriesContains [(key, [value])] k v = true ↔ _
    by_cases hk : k = key
    · subst hk
      rw [entriesContains_cons_self]
      simp [entriesContains_nil]
    · rw [entriesContains_cons_ne key k [value] [] v (fun h => hk h.symm)]
      simp [entriesContains_nil, hk]
  | cons e rest ih =>
    obtain ⟨k0, vs0⟩ := e
    by_cases h0 : k0 = key
    · subst h0
      rw [show insertValue ((k0, vs0) :: rest) k0 value =
            (k0, if value ∈ vs0 then vs0 else vs0 ++ [value]) :: rest by
          simp [insertValue]]
      by_cases hk : k0 = k
      · subst hk
        rw [entriesContains_cons_self, entriesContains_cons_self]
        by_cases hv : value ∈ vs0
        · rw [if_pos hv]
          simp only [decide_eq_true_eq]
          exact ⟨fun h => Or.inr h, fun h => h.elim (fun hc => hc.2 ▸ hv) id⟩
        · rw [if_neg hv]
          simp only [decide_eq_true_eq, List.mem_append, List.mem_singleton]
          constructor
          · intro h
            exact h.elim (fun h1 => Or.inr h1) (fun h2 => Or.inl ⟨trivial, h2⟩)
          · intro h
            exact h.elim (fun hc => Or.inr hc.2) (fun h2 => Or.inl h2)
      · rw [entriesContains_cons_ne k0 k _ rest v hk,
            entriesContains_cons_ne k0 k vs0 rest v hk]
        exact ⟨fun h => Or.inr h,
          fun h => h.elim (fun hc => absurd hc.1.symm hk) id⟩
    · rw [show insertValue ((k0, vs0) :: rest) key value =
            (k0, vs0) :: insertValue rest key value by
          simp [insertValue, h0]]
      by_cases hk : k0 = k
      · subst hk
        rw [entriesContains_cons_self, entriesContains_cons_self]
        exact ⟨fun h => Or.inr h, fun h => h.elim (fun hc => absurd hc.1 h0) id⟩
      · rw [entriesContains_cons_ne k0 k vs0 _ v hk,
            entriesContains_cons_ne k0 k vs0 rest v hk]
        exact ih

theorem insertValue_idem (entries : List (String × List String)) (key value : String) :
    insertValue (insertValue entries key value) key value = insertValue entries key value := by
  induction entries with
  | nil => simp [insertValue]
  | cons e rest ih =>
    obtain ⟨k0, vs0⟩ := e
    by_cases h0 : k0 = key
    · subst h0
      by_cases hv : value ∈ vs0
      · simp [insertValue, hv]
      · simp [insertValue, hv]
    · simp [insertValue, h0, ih]

theorem insertValue_nodup (entries : List (String × List String)) (key value : String)
    (h : ∀ p ∈ entries, List.Nodup p.snd) :
    ∀ p ∈ insertValue entries key value, List.Nodup p.snd := by
  induction entries with
  | nil =>
    intro p hp
    simp [insertValue] at hp
    subst hp
    simp
  | cons e rest ih =>
    obtain ⟨k0, vs0⟩ := e
    have h0 : List.Nodup vs0 := h (k0, vs0) (List.mem_cons_self _ _)
    have hrest : ∀ p ∈ rest, List.Nodup p.snd := fun p hp => h p (List.mem_cons_of_mem _ hp)
    by_cases hk : k0 = key
    · subst hk
      by_cases hv : value ∈ vs0
      · simp only [insertValue, if_pos rfl, if_pos hv]
        exact h
      · intro p hp
        simp only [insertValue, if_pos rfl, if_neg hv] at hp
        rcases List.mem_cons.mp hp with h1 | h2
        · subst h1
          simp [List.nodup_append, h0, hv]
        · exact hrest p h2
    · intro p hp
      simp only [insertValue, if_neg hk] at hp
      rcases List.mem_cons.mp hp with h1 | h2
      · subst h1; exact h0
      · exact ih hrest p h2

/-! ## Matching and counting lemmas -/

theorem lookupMethodArg_pos (name : String) (idx : Nat)
    (h : lookupMethodArg name = some idx) : 1 ≤ idx := by
  unfold lookupMethodArg at h
  cases hf : methodArgMap.find? (fun p => p.fst == name) with
  | none => rw [hf] at h; exact absurd h (by simp)
  | some p =>
    rw [hf] at h
    have hmem : p ∈ methodArgMap := List.mem_of_find?_eq_some hf
    have hall : ∀ q ∈ methodArgMap, 1 ≤ q.snd := by decide
    have := hall p hmem
    simp only [Option.some.injEq] at h
    omega

theorem visitNode_ok_count (a : Analyzer) (n : AstNode) (a2 : Analyzer)
    (h : visitNode a n = Except.ok a2) :
    a2.clientMethodCallCount =
      a.clientMethodCallCount + (if fullyMatchedNode n then 1 else 0) := by
  cases n with
  | other =>
    simp only [visitNode] at h
    cases h
    simp [fullyMatchedNode]
  | selCall c =>
    simp only [visitNode] at h
    split at h
    case h_2 hl =>
      cases h
      simp [fullyMatchedNode, fullyMatchedCall, hl]
    case h_1 idx hl =>
      simp only [processMethodCall] at h
      split at h
      case h_2 hd =>
        cases h
        simp [fullyMatchedNode, fullyMatchedCall, hl, hd]
      case h_1 pkgPath hd =>
        split at h
        case isFalse hp =>
          cases h
          simp [fullyMatchedNode, fullyMatchedCall, hl, hd, hp]
        case isTrue hp =>
          split at h
          case h_1 hg => exact absurd h (by simp)
          case h_2 arg hg =>
            split at h
            case h_1 hr => exact absurd h (by simp)
            case h_2 t hr =>
              cases h
              have hidx : 1 ≤ idx := lookupMethodArg_pos _ _ hl
              have hlen : idx - 1 < c.args.length := (List.get?_eq_some.mp hg).1
              have hle : idx ≤ c.args.length := by omega
              simp [fullyMatchedNode, fullyMatchedCall, hl, hd, hp, hle]

theorem findClientMethodCalls_count (nodes : List AstNode) :
    ∀ (a a2 : Analyzer), findClientMethodCalls a nodes = Except.ok a2 →
      a2.clientMethodCallCount =
        a.clientMethodCallCount + nodes.countP fullyMatchedNode := by
  induction nodes with
  | nil =>
    intro a a2 h
    simp only [findClientMethodCalls] at h
    cases h
    simp
  | cons n rest ih =>
    intro a a2 h
    simp only [findClientMethodCalls] at h
    cases hv : visitNode a n with
    | error e => rw [hv] at h; exact absurd h (by simp)
    | ok a1 =>
      rw [hv] at h
      have h1 := visitNode_ok_count a n a1 hv
      have h2 := ih a1 a2 h
      rw [h2, h1, List.countP_cons]
      omega

/-! ## Normalization lemmas -/

theorem camelCaseReplace_id (l : List Char) : camelCaseReplace l = l := by
  induction l using camelCaseReplace.induct <;> simp_all [camelCaseReplace]

theorem charToNat_ofNat_valid (n : Nat) (h : n.isValidChar) : (Char.ofNat n).toNat = n := by
  rw [Char.ofNat, dif_pos h]
  rfl

theorem toLower_toNat_of_upper (c : Char) (h1 : 65 ≤ c.toNat) (h2 : c.toNat ≤ 90) :
    (Char.toLower c).toNat = c.toNat + 32 := by
  unfold Char.toLower
  rw [if_pos ⟨h1, h2⟩]
  exact charToNat_ofNat_valid _ (Or.inl (by omega))

theorem toLower_of_not_upper (c : Char) (h : ¬(65 ≤ c.toNat ∧ c.toNat ≤ 90)) :
    Char.toLower c = c := by
  unfold Char.toLower
  rw [if_neg h]

theorem toLower_toLower (c : Char) : Char.toLower (Char.toLower c) = Char.toLower c := by
  by_cases h : 65 ≤ c.toNat ∧ c.toNat ≤ 90
  · have h32 := toLower_toNat_of_upper c h.1 h.2
    apply toLower_of_not_upper
    omega
  · rw [toLower_of_not_upper c h]
    exact toLower_of_not_upper c h

theorem toLower_ne_dot (c : Char) (h : c ≠ '.') : Char.toLower c ≠ '.' := by
  by_cases hu : 65 ≤ c.toNat ∧ c.toNat ≤ 90
  · intro he
    have h32 := toLower_toNat_of_upper c hu.1 hu.2
    rw [he] at h32
    have hdot : ('.' : Char).toNat = 46 := rfl
    omega
  · rw [toLower_of_not_upper c hu]
    exact h

theorem splitOnDot_ne_nil (l : List Char) : splitOnDot l ≠ [] := by
  cases l with
  | nil => simp [splitOnDot]
  | cons c rest =>
    cases h : splitOnDot rest with
    | nil => simp [splitOnDot, h]
    | cons hd tl =>
      simp only [splitOnDot, h]
      split <;> simp

theorem mem_splitOnDot_no_dot (l : List Char) :
    ∀ p ∈ splitOnDot l, '.' ∉ p := by
  induction l with
  | nil =>
    intro p hp
    simp [splitOnDot] at hp
    simp [hp]
  | cons c rest ih =>
    intro p hp
    cases h : splitOnDot rest with
    | nil => exact absurd h (splitOnDot_ne_nil rest)
    | cons hd tl =>
      simp only [splitOnDot, h] at hp
      by_cases hc : c = '.'
      · rw [if_pos hc] at hp
        rcases List.mem_cons.mp hp with h1 | h2
        · subst h1; simp
        · exact ih p (h ▸ h2)
      · rw [if_neg hc] at hp
        rcases List.mem_cons.mp hp with h1 | h2
        · subst h1
          intro hmem
          rcases List.mem_cons.mp hmem with h3 | h4
          · exact hc h3.symm
          · exact ih hd (h ▸ List.mem_cons_self hd tl) h4
        · exact ih p (h ▸ List.mem_cons_of_mem hd h2)

theorem splitOnDot_no_dot (l : List Char) (h : '.' ∉ l) : splitOnDot l = [l] := by
  induction l with
  | nil => rfl
  | cons c rest ih =>
    have hc : c ≠ '.' := fun he => h (he ▸ List.mem_cons_self c rest)
    have hrest : '.' ∉ rest := fun hm => h (List.mem_cons_of_mem c hm)
    simp only [splitOnDot, ih hrest]
    rw [if_neg (fun he => hc he)]

theorem splitOnDot_length_of_dot (l : List Char) (h : '.' ∈ l) :
    1 < (splitOnDot l).length := by
  induction l with
  | nil => simp at h
  | cons c rest ih =>
    cases hs : splitOnDot rest with
    | nil => exact absurd hs (splitOnDot_ne_nil rest)
    | cons hd tl =>
      simp only [splitOnDot, hs]
      by_cases hc : c = '.'
      · rw [if_pos hc]
        simp
      · rw [if_neg hc]
        rcases List.mem_cons.mp h with h1 | h2
        · exact absurd h1.symm hc
        · have := ih h2
          rw [hs] at this
          simpa using this

theorem lastPart_mem (parts : List (List Char)) (dflt : List Char) (h : parts ≠ []) :
    lastPart parts dflt ∈ parts := by
  induction parts with
  | nil => exact absurd rfl h
  | cons p rest ih =>
    cases rest with
    | nil => simp [lastPart]
    | cons q rest2 =>
      simp only [lastPart]
      exact List.mem_cons_of_mem p (ih (by simp))

theorem extractResourceNameL_no_dot (l : List Char) : '.' ∉ extractResourceNameL l := by
  unfold extractResourceNameL
  by_cases h : 1 < (splitOnDot l).length
  · rw [if_pos h]
    exact mem_splitOnDot_no_dot l _ (lastPart_mem _ _ (splitOnDot_ne_nil l))
  · rw [if_neg h]
    intro hd
    exact h (splitOnDot_length_of_dot l hd)

theorem extractResourceNameL_of_no_dot (l : List Char) (h : '.' ∉ l) :
    extractResourceNameL l = l := by
  unfold extractResourceNameL
  rw [splitOnDot_no_dot l h]
  simp

theorem map_toLower_no_dot (l : List Char) (h : '.' ∉ l) :
    '.' ∉ l.map Char.toLower := by
  intro hm
  rcases List.mem_map.mp hm with ⟨c, hc, he⟩
  exact toLower_ne_dot c (fun hce => h (hce ▸ hc)) he

theorem map_toLower_idem (l : List Char) :
    (l.map Char.toLower).map Char.toLower = l.map Char.toLower := by
  rw [List.map_map]
  exact List.map_congr_left (fun c _ => toLower_toLower c)

theorem getKubernetesResourceName_data (s : String) :
    getKubernetesResourceName s = String.mk (s.data.map Char.toLower) := by
  unfold getKubernetesResourceName
  rw [camelCaseReplace_id]

theorem normalizeResource_data (s : String) :
    normalizeResource s = String.mk ((extractResourceNameL s.data).map Char.toLower) := by
  unfold normalizeResource extractResourceName
  rw [getKubernetesResourceName_data]

theorem normalizeResource_idem (x : String) :
    normalizeResource (normalizeResource x) = normalizeResource x := by
  rw [normalizeResource_data x, normalizeResource_data]
  have h1 : '.' ∉ extractResourceNameL x.data := extractResourceNameL_no_dot x.data
  have h2 : '.' ∉ (extractResourceNameL x.data).map Char.toLower :=
    map_toLower_no_dot _ h1
  show String.mk ((extractResourceNameL ((extractResourceNameL x.data).map Char.toLower)).map
    Char.toLower) = _
  rw [extractResourceNameL_of_no_dot _ h2, map_toLower_idem]

/-! ## Aggregate reachability lemmas -/

theorem containsMethod_applyRecords (ops : List (String × String)) :
    ∀ (a : Analyzer) (key value : String),
      containsMethod (applyRecords a ops) key value = true ↔
        (key, value) ∈ ops ∨ containsMethod a key value = true := by
  induction ops with
  | nil =>
    intro a k v
    simp [applyRecords]
  | cons op rest ih =>
    intro a k v
    obtain ⟨k0, v0⟩ := op
    have hins := entriesContains_insertValue a.resourcePerListMethods k0 v0 k v
    simp only [applyRecords]
    rw [ih]
    constructor
    · rintro (hmem | hc)
      · exact Or.inl (List.mem_cons_of_mem _ hmem)
      · rcases hins.mp hc with ⟨hk, hv⟩ | hc2
        · subst hk; subst hv
          exact Or.inl (List.mem_cons_self _ _)
        · exact Or.inr hc2
    · rintro (hmem | hc)
      · rcases List.mem_cons.mp hmem with he | hm
        · right
          apply hins.mpr
          exact Or.inl ⟨congrArg Prod.fst he, congrArg Prod.snd he⟩
        · exact Or.inl hm
      · exact Or.inr (hins.mpr (Or.inr hc))

theorem applyRecords_nodup (ops : List (String × String)) :
    ∀ (a : Analyzer), (∀ p ∈ a.resourcePerListMethods, List.Nodup p.snd) →
      ∀ p ∈ (applyRecords a ops).resourcePerListMethods, List.Nodup p.snd := by
  induction ops with
  | nil => intro a h; exact h
  | cons op rest ih =>
    intro a h
    exact ih (addValueToMap a op.fst op.snd)
      (insertValue_nodup a.resourcePerListMethods op.fst op.snd h)

theorem lookupMethods_mem (a : Analyzer) (key : String) (l : List String)
    (h : lookupMethods a key = some l) :
    ∃ p ∈ a.resourcePerListMethods, p.snd = l := by
  unfold lookupMethods at h
  cases hf : a.resourcePerListMethods.find? (fun p => p.fst == key) with
  | none => rw [hf] at h; exact absurd h (by simp)
  | some p =>
    rw [hf] at h
    simp only [Option.some.injEq] at h
    exact ⟨p, List.mem_of_find?_eq_some hf, h⟩

/-- C1: for every matched call site, the resource identity recorded by the
aggregator is exactly `GoType.render` of the statically resolved type of the
argument at the configured index — the raw fully-qualified string is the
aggregation join key (normalization appears only in the reporter,
`logMapLines`) — and two matched call sites whose argument types are
structurally identical therefore record the same key. -/
theorem matched_call_records_raw_type_identity :
    (∀ (a : Analyzer) (c : SelectorCall) (argIndex : Nat) (arg : GoArg) (t : GoType),
        lookupMethodArg c.methodName = some argIndex →
        c.declaringPkg = some targetPackage →
        c.args.get? (argIndex - 1) = some arg →
        arg.resolvedType = some t →
        visitNode a (.selCall c) = Except.ok
          { clientMethodCallCount := a.clientMethodCallCount + 1,
            resourcePerListMethods :=
              insertValue a.resourcePerListMethods (GoType.render t) c.methodName })
    ∧ (∀ t1 t2 : GoType, t1 = t2 → GoType.render t1 = GoType.render t2) := by
  constructor
  · intro a c argIndex arg t h1 h2 h3 h4
    simp only [List.get?_eq_getElem?] at h3
    simp [visitNode, processMethodCall, h1, h2, h3, h4]
  · intro t1 t2 h
    rw [h]

/-- Witness for C1 at the call `c.Get(ctx, key, &pkg.Deployment{})`: the key
recorded is the raw rendering `*pkg.Deployment`. -/
theorem matched_call_records_raw_type_identity_witness :
    visitNode NewAnalyzer (.selCall getDeploymentCall) =
      Except.ok { clientMethodCallCount := 1,
                  resourcePerListMethods := [("*pkg.Deployment", ["Get"])] } :=
  matched_call_records_raw_type_identity.1 NewAnalyzer getDeploymentCall 3
    deploymentArg (GoType.pointer (GoType.named "pkg" "Deployment")) rfl rfl rfl rfl

/-- C2: after a traversal that completes, `clientMethodCallCount` equals the
number of traversal nodes satisfying the full match predicate (known method,
target namespace, sufficient arity), counting repeated `(resource, method)`
pairs — not the cardinality of the aggregate map. -/
theorem totalMatchedCalls_counts_matched_sites :
    ∀ (nodes : List AstNode) (a : Analyzer),
      findClientMethodCalls NewAnalyzer nodes = Except.ok a →
      a.clientMethodCallCount = nodes.countP fullyMatchedNode := by
  intro nodes a h
  have hc := findClientMethodCalls_count nodes NewAnalyzer a h
  simpa [NewAnalyzer] using hc

/-- Witness for C2 on the three-call example: the count is 3, although the
aggregate map has only 2 entries. -/
theorem totalMatchedCalls_counts_matched_sites_witness :
    findClientMethodCalls NewAnalyzer exampleNodes = Except.ok exampleResult ∧
    exampleResult.clientMethodCallCount = exampleNodes.countP fullyMatchedNode ∧
    exampleResult.resourcePerListMethods.length = 2 :=
  ⟨rfl, totalMatchedCalls_counts_matched_sites exampleNodes exampleResult rfl, rfl⟩

/-- C3: the claim says a matched call with fewer arguments than the configured
`argIndex` is discarded without failing the run.  The code has no such guard:
evaluating the embedded `processMethodCall` at a matched `Get` call with two
arguments reaches `call.Args[argIndex-1]` out of bounds — a Go runtime panic,
i.e. the run fails. -/
theorem insufficient_arity_call_panics :
    matchedCall truncatedGetCall = true ∧
    visitNode NewAnalyzer (.selCall truncatedGetCall) =
      Except.error "runtime error: index out of range" :=
  ⟨rfl, rfl⟩

/-- C4: on the three-call example the aggregate maps `*pkg.Deployment`
(displayed `deployment`) to `{Get, Create}`, `*pkg.Pod` (displayed `pod`) to
`{Get}`, and the counter is 3. -/
theorem three_call_example_result :
    findClientMethodCalls NewAnalyzer exampleNodes = Except.ok exampleResult ∧
    exampleResult.clientMethodCallCount = 3 ∧
    lookupMethods exampleResult "*pkg.Deployment" = some ["Get", "Create"] ∧
    lookupMethods exampleResult "*pkg.Pod" = some ["Get"] ∧
    normalizeResource "*pkg.Deployment" = "deployment" ∧
    normalizeResource "*pkg.Pod" = "pod" :=
  ⟨rfl, rfl, rfl, rfl, rfl, rfl⟩

/-- C5: a call that fails the match predicate — method name not in the table,
or declaring symbol unresolved or outside the target namespace — leaves the
analyzer state completely unchanged, as does any non-call node. -/
theorem unmatched_call_is_silently_discarded :
    (∀ (a : Analyzer) (c : SelectorCall),
        matchedCall c = false → visitNode a (.selCall c) = Except.ok a)
    ∧ (∀ a : Analyzer, visitNode a .other = Except.ok a) := by
  constructor
  · intro a c h
    cases hl : lookupMethodArg c.methodName with
    | none => simp [visitNode, hl]
    | some idx =>
      have hd : (c.declaringPkg == some targetPackage) = false := by
        rw [matchedCall, hl] at h
        simpa using h
      simp only [visitNode, hl, processMethodCall]
      cases hdp : c.declaringPkg with
      | none => rfl
      | some p =>
        have hp : p ≠ targetPackage := by
          rw [hdp] at hd
          simpa using hd
        simp [hp]
  · intro a
    rfl

/-- Witness for C5: an unrelated method, a same-named method on a type outside
the target namespace, and a call whose symbol resolution failed, all leave the
fresh analyzer untouched. -/
theorem unmatched_call_is_silently_discarded_witness :
    visitNode NewAnalyzer (.selCall unrelatedMethodCall) = Except.ok NewAnalyzer ∧
    visitNode NewAnalyzer (.selCall otherPackageGetCall) = Except.ok NewAnalyzer ∧
    visitNode NewAnalyzer (.selCall unresolvedSymbolGetCall) = Except.ok NewAnalyzer :=
  ⟨unmatched_call_is_silently_discarded.1 NewAnalyzer unrelatedMethodCall rfl,
   unmatched_call_is_silently_discarded.1 NewAnalyzer otherPackageGetCall rfl,
   unmatched_call_is_silently_discarded.1 NewAnalyzer unresolvedSymbolGetCall rfl⟩

/-- C6: the per-resource method collection is a set — re-recording a pair is a
no-op, the final mapping is invariant under permutation of the record
operations, and recording only grows the mapping (never removes a recorded
pair). -/
theorem record_is_set_like_and_order_independent :
    (∀ (a : Analyzer) (key value : String),
        addValueToMap (addValueToMap a key value) key value = addValueToMap a key value)
    ∧ (∀ (ops1 ops2 : List (String × String)), ops1.Perm ops2 →
        ∀ (key value : String),
          containsMethod (applyRecords NewAnalyzer ops1) key value =
            containsMethod (applyRecords NewAnalyzer ops2) key value)
    ∧ (∀ (a : Analyzer) (key value key2 value2 : String),
        containsMethod a key value = true →
        containsMethod (addValueToMap a key2 value2) key value = true) := by
  refine ⟨?_, ?_, ?_⟩
  · intro a key value
    show ({ a with resourcePerListMethods :=
        insertValue (insertValue a.resourcePerListMethods key value) key value } : Analyzer) = _
    rw [insertValue_idem]
    rfl
  · intro ops1 ops2 hperm key value
    have h1 := containsMethod_applyRecords ops1 NewAnalyzer key value
    have h2 := containsMethod_applyRecords ops2 NewAnalyzer key value
    have hne : containsMethod NewAnalyzer key value = false := rfl
    rw [hne] at h1 h2
    have hiff : containsMethod (applyRecords NewAnalyzer ops1) key value = true ↔
        containsMethod (applyRecords NewAnalyzer ops2) key value = true := by
      rw [h1, h2, hperm.mem_iff]
    by_cases hb : containsMethod (applyRecords NewAnalyzer ops1) key value = true
    · rw [hb, hiff.mp hb]
    · have hb2 : ¬containsMethod (applyRecords NewAnalyzer ops2) key value = true :=
        fun h => hb (hiff.mpr h)
      rw [Bool.not_eq_true] at hb hb2
      rw [hb, hb2]
  · intro a key value key2 value2 h
    exact (entriesContains_insertValue a.resourcePerListMethods key2 value2 key value).mpr
      (Or.inr h)

/-- Witness for C6 at concrete inputs: double insertion collapses, a permuted
record sequence yields the same membership, and membership survives a later
record. -/
theorem record_is_set_like_and_order_independent_witness :
    addValueToMap (addValueToMap NewAnalyzer "*pkg.Pod" "Get") "*pkg.Pod" "Get" =
      addValueToMap NewAnalyzer "*pkg.Pod" "Get" ∧
    containsMethod (applyRecords NewAnalyzer
        [("*pkg.Deployment", "Get"), ("*pkg.Pod", "Create")]) "*pkg.Pod" "Create" =
      containsMethod (applyRecords NewAnalyzer
        [("*pkg.Pod", "Create"), ("*pkg.Deployment", "Get")]) "*pkg.Pod" "Create" ∧
    containsMethod
      (addValueToMap (addValueToMap NewAnalyzer "*pkg.Pod" "Get") "*pkg.Deployment" "Create")
      "*pkg.Pod" "Get" = true :=
  ⟨record_is_set_like_and_order_independent.1 NewAnalyzer "*pkg.Pod" "Get",
   record_is_set_like_and_order_independent.2.1
     [("*pkg.Deployment", "Get"), ("*pkg.Pod", "Create")]
     [("*pkg.Pod", "Create"), ("*pkg.Deployment", "Get")] (by decide) "*pkg.Pod" "Create",
   record_is_set_like_and_order_independent.2.2
     (addValueToMap NewAnalyzer "*pkg.Pod" "Get") "*pkg.Pod" "Get"
     "*pkg.Deployment" "Create" rfl⟩

/-- C7: display-time normalization (strip qualification to the last dot
segment, then case-fold and lowercase) is idempotent, and maps
`StorageCluster` to `storagecluster` and `VolumeV2` to `volumev2`. -/
theorem normalization_idempotent :
    (∀ x : String, normalizeResource (normalizeResource x) = normalizeResource x) ∧
    normalizeResource "StorageCluster" = "storagecluster" ∧
    normalizeResource "VolumeV2" = "volumev2" :=
  ⟨normalizeResource_idem, rfl, rfl⟩

/-- C8 counterexample: at the matched call `c.Get(ctx, key, &pkg.Deployment{})`
whose argument type failed to resolve, the code does not record a textual
identity and does not keep going — `argType.String()` on the nil type is a
runtime panic that aborts the run. -/
theorem unresolved_arg_type_fatal_cex :
    matchedCall unresolvedTypeGetCall = true ∧
    visitNode NewAnalyzer (.selCall unresolvedTypeGetCall) =
      Except.error "runtime error: invalid memory address or nil pointer dereference" :=
  ⟨rfl, rfl⟩

/-- C8 (amended): for every matched call whose in-range resource argument has
no resolved type, the analyzer panics (nil `types.Type` dereference); the call
site is neither recorded nor counted, and the run fails. -/
theorem unresolved_arg_type_panics :
    ∀ (a : Analyzer) (c : SelectorCall) (argIndex : Nat) (arg : GoArg),
      lookupMethodArg c.methodName = some argIndex →
      c.declaringPkg = some targetPackage →
      c.args.get? (argIndex - 1) = some arg →
      arg.resolvedType = none →
      visitNode a (.selCall c) =
        Except.error "runtime error: invalid memory address or nil pointer dereference" := by
  intro a c argIndex arg h1 h2 h3 h4
  simp only [List.get?_eq_getElem?] at h3
  simp [visitNode, processMethodCall, h1, h2, h3, h4]

/-- Witness for the amended C8 at the concrete unresolved-type call. -/
theorem unresolved_arg_type_panics_witness :
    visitNode NewAnalyzer (.selCall unresolvedTypeGetCall) =
      Except.error "runtime error: invalid memory address or nil pointer dereference" :=
  unresolved_arg_type_panics NewAnalyzer unresolvedTypeGetCall 3 nilTypeDeploymentArg
    rfl rfl rfl rfl

/-- C9 counterexample: running the pipeline on the three-call example, the
reporter emits the Deployment methods as `[Get, Create]` — the stored
iteration order — which is not sorted (`Get` precedes `Create`
lexicographically reversed). -/
theorem reporter_output_unsorted_cex :
    findClientMethodCalls NewAnalyzer exampleNodes = Except.ok exampleResult ∧
    lookupMethods exampleResult "*pkg.Deployment" = some ["Get", "Create"] ∧
    logMapLines exampleResult false =
      ["Resource: deployment\nMethods: [Get, Create]\n",
       "Resource: pod\nMethods: [Get]\n"] ∧
    sortedStrings ["Get", "Create"] = false :=
  ⟨rfl, rfl, rfl, rfl⟩

/-- C9 (amended): the reporter emits each resource's methods de-duplicated —
every method list reachable from a fresh analyzer by record operations has no
duplicates — but in map iteration order, without sorting. -/
theorem reporter_methods_deduplicated :
    ∀ (ops : List (String × String)) (key : String) (l : List String),
      lookupMethods (applyRecords NewAnalyzer ops) key = some l → l.Nodup := by
  intro ops key l h
  rcases lookupMethods_mem _ _ _ h with ⟨p, hmem, hsnd⟩
  have hstart : ∀ q ∈ NewAnalyzer.resourcePerListMethods, List.Nodup q.snd := by
    intro q hq
    simp [NewAnalyzer] at hq
  exact hsnd ▸ applyRecords_nodup ops NewAnalyzer hstart p hmem

/-- Witness for the amended C9 at a concrete record sequence. -/
theorem reporter_methods_deduplicated_witness :
    (["Get", "Create"] : List String).Nodup :=
  reporter_methods_deduplicated
    [("*pkg.Deployment", "Get"), ("*pkg.Deployment", "Create")]
    "*pkg.Deployment" ["Get", "Create"] rfl

/-- C10: the camel-case boundary step of `getKubernetesResourceName` replaces
every match by itself, so the whole function is extensionally plain
lowercasing. -/
theorem kube_name_equals_plain_lowercase :
    ∀ s : String, getKubernetesResourceName s = goToLower s := by
  intro s
  rw [getKubernetesResourceName_data]
  rfl
